import Mathlib

/-!
Verification of the scalar math core of `include/godot_cpp/core/math.hpp`
(namespace `godot::Math`).

Modelling conventions:
* Floating-point scalars (`float` / `double`) are modelled as exact
  rationals `ℚ`; both precisions share the same formulas in the source,
  so one embedding covers both.  Rounding error, NaN and infinity are
  outside the model.
* The decimal literals `Math_PI`, `Math_TAU`, `CMP_EPSILON` and
  `UNIT_EPSILON` are taken as the exact rationals written in the source.
* `unsigned int` is modelled as `Nat` with explicit reduction `% 2 ^ 32`
  where C arithmetic wraps; `int64_t` is modelled as `ℤ` (its `%` is the
  C truncated remainder `Int.tmod`).
* The C library `fmod` is the remainder after division rounded toward
  zero (`truncQ`), whose sign follows the dividend.
-/

namespace Godot

/-- Truncation of a rational toward zero, as performed by the C cast in
`fmod`: the floor for non-negative arguments, minus the floor of the
negation otherwise. -/
def truncQ (q : ℚ) : ℤ := if 0 ≤ q then ⌊q⌋ else -⌊-q⌋

/-- The `Math_PI` macro of `math.hpp`, as the exact decimal literal
`3.1415926535897932384626433833`. -/
def Math_PI : ℚ := 31415926535897932384626433833 / 10 ^ 28

/-- The `Math_TAU` macro of `math.hpp`, as the exact decimal literal
`6.2831853071795864769252867666` (which is exactly `2 * Math_PI`). -/
def Math_TAU : ℚ := 62831853071795864769252867666 / 10 ^ 28

namespace Math

/-- The `CMP_EPSILON` macro of `math.hpp` (`0.00001f`), modelled as the
exact decimal `1e-5`.  It is defined unconditionally, independent of the
`PRECISE_MATH_CHECKS` configuration. -/
def CMP_EPSILON : ℚ := 1 / 100000

/-- The `UNIT_EPSILON` macro of `math.hpp`: `0.00001` when
`PRECISE_MATH_CHECKS` is defined, `0.001` otherwise.  The compile-time
switch is modelled as a `Bool` argument. -/
def UNIT_EPSILON (precise_math_checks : Bool) : ℚ :=
  if precise_math_checks then 1 / 100000 else 1 / 1000

/-- `Math::fmod` of `math.hpp`, which forwards to the C library `fmod`:
the remainder of `p_x / p_y` with the quotient rounded toward zero.
(For `p_y = 0` the C function yields NaN, outside this model; no claim
uses that case.) -/
def fmod (p_x p_y : ℚ) : ℚ := p_x - p_y * truncQ (p_x / p_y)

/-- `Math::deg_to_rad` of `math.hpp`: `p_y * Math_PI / 180`. -/
def deg_to_rad (p_y : ℚ) : ℚ := p_y * Math_PI / 180

/-- `Math::lerp` of `math.hpp`: `minv + t * (maxv - minv)`. -/
def lerp (minv maxv t : ℚ) : ℚ := minv + t * (maxv - minv)

/-- `Math::lerp_angle` of `math.hpp` (scalar overloads, lines 451-460):
double-remainder shortest-arc interpolation. -/
def lerp_angle (p_from p_to p_weight : ℚ) : ℚ :=
  let difference := fmod (p_to - p_from) Math_TAU
  let distance := fmod (2 * difference) Math_TAU - difference
  p_from + distance * p_weight

/-- Two-argument `Math::is_equal_approx` of `math.hpp` (lines 733-744 for
`float`, 759-770 for `double`; the formulas are identical): exact
equality first, then `|a - b| < tolerance` with
`tolerance = CMP_EPSILON * |a|` raised to at least `CMP_EPSILON`. -/
def is_equal_approx (a b : ℚ) : Bool :=
  if a = b then true
  else
    let tolerance := CMP_EPSILON * |a|
    let tolerance := if tolerance < CMP_EPSILON then CMP_EPSILON else tolerance
    decide (|a - b| < tolerance)

/-- `Math::is_zero_approx` of `math.hpp`: `|s| < CMP_EPSILON`. -/
def is_zero_approx (s : ℚ) : Bool := decide (|s| < CMP_EPSILON)

/-- `Math::fposmodp` of `math.hpp` (lines 320-335): the `fmod` remainder
with `p_y` added when the remainder is negative.  (The final
`value += 0.0` of the source only normalises `-0.0` and is a no-op over
`ℚ`.) -/
def fposmodp (p_x p_y : ℚ) : ℚ :=
  let value := fmod p_x p_y
  let value := if value < 0 then value + p_y else value
  value

/-- `Math::wrapi` of `math.hpp` (lines 902-905) on `int64_t`, modelled
over `ℤ`; the C `%` on signed integers is the truncated remainder
`Int.tmod`. -/
def wrapi (value min max : ℤ) : ℤ :=
  let range := max - min
  if range = 0 then min
  else min + (Int.tmod (Int.tmod (value - min) range + range) range)

/-- `Math::cubic_interpolate_in_time` of `math.hpp` (lines 548-570; the
`double` and `float` overloads share the formula): Barry-Goldman
non-uniform cubic interpolation with guarded degenerate time spans. -/
def cubic_interpolate_in_time (p_from p_to p_pre p_post p_weight p_to_t p_pre_t p_post_t : ℚ) : ℚ :=
  let t := lerp 0 p_to_t p_weight
  let a1 := lerp p_pre p_from (if p_pre_t = 0 then 0 else (t - p_pre_t) / -p_pre_t)
  let a2 := lerp p_from p_to (if p_to_t = 0 then 0.5 else t / p_to_t)
  let a3 := lerp p_to p_post (if p_post_t - p_to_t = 0 then 1 else (t - p_to_t) / (p_post_t - p_to_t))
  let b1 := lerp a1 a2 (if p_to_t - p_pre_t = 0 then 0 else (t - p_pre_t) / (p_to_t - p_pre_t))
  let b2 := lerp a2 a3 (if p_post_t = 0 then 1 else t / p_post_t)
  lerp b1 b2 (if p_to_t = 0 then 0.5 else t / p_to_t)

/-- Division that signals a zero denominator instead of returning a junk
value: used to show `cubic_interpolate_in_time` never divides by zero. -/
def cdiv (a b : ℚ) : Option ℚ := if b = 0 then none else some (a / b)

/-- `Math::cubic_interpolate_in_time` with every division routed through
`cdiv`, so that an unguarded zero denominator would surface as `none`.
The guards and constants transcribe the source exactly. -/
def cubic_interpolate_in_time_checked (p_from p_to p_pre p_post p_weight p_to_t p_pre_t p_post_t : ℚ) :
    Option ℚ := do
  let t := lerp 0 p_to_t p_weight
  let r1 ← if p_pre_t = 0 then some 0 else cdiv (t - p_pre_t) (-p_pre_t)
  let a1 := lerp p_pre p_from r1
  let r2 ← if p_to_t = 0 then some 0.5 else cdiv t p_to_t
  let a2 := lerp p_from p_to r2
  let r3 ← if p_post_t - p_to_t = 0 then some 1 else cdiv (t - p_to_t) (p_post_t - p_to_t)
  let a3 := lerp p_to p_post r3
  let r4 ← if p_to_t - p_pre_t = 0 then some 0 else cdiv (t - p_pre_t) (p_to_t - p_pre_t)
  let b1 := lerp a1 a2 r4
  let r5 ← if p_post_t = 0 then some 1 else cdiv t p_post_t
  let b2 := lerp a2 a3 r5
  let r6 ← if p_to_t = 0 then some 0.5 else cdiv t p_to_t
  some (lerp b1 b2 r6)

end Math

/-- The right-shift-or cascade (shifts 1, 2, 4, 8, 16) that appears
inline in both `next_power_of_2` and `previous_power_of_2` of
`math.hpp`: it propagates the highest set bit into every lower
position. -/
def or_shift_cascade (x : Nat) : Nat :=
  let x := x ||| (x >>> 1)
  let x := x ||| (x >>> 2)
  let x := x ||| (x >>> 4)
  let x := x ||| (x >>> 8)
  let x := x ||| (x >>> 16)
  x

/-- `next_power_of_2` of `math.hpp` (lines 98-111) on `unsigned int`:
decrement, or-cascade, increment; the increment wraps modulo `2 ^ 32`
exactly as 32-bit unsigned arithmetic does. -/
def next_power_of_2 (x : Nat) : Nat :=
  if x = 0 then 0 else (or_shift_cascade (x - 1) + 1) % 2 ^ 32

/-- `previous_power_of_2` of `math.hpp` (lines 114-121): or-cascade then
subtract the half. -/
def previous_power_of_2 (x : Nat) : Nat :=
  let x := or_shift_cascade x
  x - (x >>> 1)

/-- 32-bit unsigned subtraction `a - b`, for `a b < 2 ^ 32`: C unsigned
arithmetic wraps modulo `2 ^ 32`. -/
def usub (a b : Nat) : Nat := (a + 2 ^ 32 - b) % 2 ^ 32

/-- `closest_power_of_2` of `math.hpp` (lines 124-128):
`(nx - x) > (x - px) ? px : nx` in 32-bit unsigned arithmetic. -/
def closest_power_of_2 (x : Nat) : Nat :=
  let nx := next_power_of_2 x
  let px := previous_power_of_2 x
  if usub nx x > usub x px then px else nx

namespace Math

/-- `Math::fast_ftoi` of `math.hpp` (lines 946-967).  The source stores
its result in a function-local `static int b`, i.e. one storage location
shared by every call; that shared slot is modelled by explicit state
passing: the argument `b` is the value of the static before the call and
the second component of the result is its value after.  The conversion
itself (the portable `lrintf` branch) rounds to nearest; the exact tie
rule is irrelevant here (the source comments that the rounding mode does
not matter). -/
def fast_ftoi (a : ℚ) (b : ℤ) : ℤ × ℤ :=
  let b := round a
  (b, b)

end Math

/-! ### Helper lemmas about truncation and `fmod` -/

theorem truncQ_eval_nonneg {q : ℚ} {z : ℤ} (hq : 0 ≤ q) (h1 : (z : ℚ) ≤ q)
    (h2 : q < z + 1) : truncQ q = z := by
  unfold truncQ
  rw [if_pos hq]
  refine Int.floor_eq_iff.2 ⟨h1, ?_⟩
  exact_mod_cast h2

theorem truncQ_eval_neg {q : ℚ} {z : ℤ} (hq : q < 0) (h1 : (z : ℚ) - 1 < q)
    (h2 : q ≤ z) : truncQ q = z := by
  unfold truncQ
  rw [if_neg (not_le.2 hq)]
  have h : ⌊-q⌋ = -z := by
    refine Int.floor_eq_iff.2 ⟨?_, ?_⟩ <;> push_cast <;> linarith
  rw [h, neg_neg]

theorem sub_truncQ_lt_one (q : ℚ) : q - truncQ q < 1 := by
  unfold truncQ
  split
  · linarith [Int.lt_floor_add_one q]
  · push_cast
    linarith [Int.floor_le (-q)]

theorem neg_one_lt_sub_truncQ (q : ℚ) : -1 < q - truncQ q := by
  unfold truncQ
  split
  · linarith [Int.floor_le q]
  · push_cast
    linarith [Int.lt_floor_add_one (-q)]

namespace Math

theorem fmod_eq_sub_mul (p_x p_y : ℚ) :
    fmod p_x p_y = p_x - truncQ (p_x / p_y) * p_y := by
  unfold fmod
  ring

theorem abs_fmod_lt {p_y : ℚ} (p_x : ℚ) (hy : 0 < p_y) : |fmod p_x p_y| < p_y := by
  have hy0 : p_y ≠ 0 := ne_of_gt hy
  have hval : fmod p_x p_y = p_y * (p_x / p_y - truncQ (p_x / p_y)) := by
    unfold fmod
    field_simp
  rw [hval, abs_lt]
  have h1 := sub_truncQ_lt_one (p_x / p_y)
  have h2 := neg_one_lt_sub_truncQ (p_x / p_y)
  constructor <;> nlinarith

/-! ### Claim C10 -/

/-- Claim C10 is refuted as stated: for the negative divisor `-3` the
raw remainder `fmod (-1) (-3) = -1` is negative and adding the divisor
drives it further down, so `fposmodp (-1) (-3) = -4 < 0` although the
divisor is nonzero. -/
theorem fposmodp_negative_divisor_counterexample :
    fposmodp (-1 : ℚ) (-3) < 0 ∧ (-3 : ℚ) < 0 := by
  have ht : truncQ ((-1 : ℚ) / (-3)) = 0 :=
    truncQ_eval_nonneg (by norm_num) (by norm_num) (by norm_num)
  constructor
  · unfold fposmodp fmod
    rw [ht]
    norm_num
  · norm_num

/-- Claim C10 (amended): for every scalar `x` and every positive divisor
`y`, `fposmodp x y` is non-negative (the raw remainder has `y` added
when it is negative).  The source requires a positive divisor; for a
negative divisor the result can be negative. -/
theorem fposmodp_nonneg (p_x p_y : ℚ) (hy : 0 < p_y) : 0 ≤ fposmodp p_x p_y := by
  have h := abs_fmod_lt p_x hy
  rw [abs_lt] at h
  show (0 : ℚ) ≤ if fmod p_x p_y < 0 then fmod p_x p_y + p_y else fmod p_x p_y
  split
  · linarith [h.1]
  · linarith [not_lt.1 (by assumption)]

/-- Witness for `fposmodp_nonneg` at `x = -1`, `y = 3`. -/
theorem fposmodp_nonneg_witness : (0 : ℚ) < 3 ∧ 0 ≤ fposmodp (-1 : ℚ) 3 :=
  ⟨by norm_num, fposmodp_nonneg (-1) 3 (by norm_num)⟩

/-! ### Claims C2 and C6 -/

/-- Claim C2: the two-argument `is_equal_approx a b` is true exactly when
`a = b` or `|a - b| < max CMP_EPSILON (CMP_EPSILON * |a|)` (the
tolerance scales with the magnitude of the first operand only); in
particular `is_equal_approx 1e10 (1e10 + 0.5)` is true. -/
theorem is_equal_approx_spec :
    (∀ a b : ℚ, is_equal_approx a b = true ↔
      a = b ∨ |a - b| < max CMP_EPSILON (CMP_EPSILON * |a|)) ∧
    is_equal_approx (10 ^ 10 : ℚ) (10 ^ 10 + 0.5) = true := by
  constructor
  · intro a b
    unfold is_equal_approx
    by_cases hab : a = b
    · simp [hab]
    · rw [if_neg hab]
      simp only [decide_eq_true_eq]
      have hmax : (if CMP_EPSILON * |a| < CMP_EPSILON then CMP_EPSILON
          else CMP_EPSILON * |a|) = max CMP_EPSILON (CMP_EPSILON * |a|) := by
        rcases lt_or_le (CMP_EPSILON * |a|) CMP_EPSILON with h | h
        · rw [if_pos h, max_eq_left (le_of_lt h)]
        · rw [if_neg (not_lt.2 h), max_eq_right h]
      rw [hmax]
      exact ⟨Or.inr, fun h => h.elim (fun h1 => absurd h1 hab) id⟩
  · unfold is_equal_approx CMP_EPSILON
    norm_num [abs_of_nonneg]

/-- Claim C6 is refuted as stated: the absolute epsilon of
`is_equal_approx` is the unconditional `CMP_EPSILON = 1e-5` — the very
value the claim calls the precise configuration — and `1e-7 < 1e-5`, so
`is_equal_approx 0.0 1e-7` is already true there, not false. -/
theorem is_equal_approx_small_counterexample :
    is_equal_approx (0 : ℚ) (1 / 10000000) = true := by
  unfold is_equal_approx CMP_EPSILON
  norm_num [abs_of_nonneg]

/-- Claim C6 (amended): `is_equal_approx 0.0 1e-7` is true, and
independently of the configuration switch: the switch selects only
`UNIT_EPSILON` (`1e-5` precise, `1e-3` tolerant), while the
approximate-equality and approximate-zero tests always use the fixed
`CMP_EPSILON = 1e-5`. -/
theorem epsilon_config_spec :
    is_equal_approx (0 : ℚ) (1 / 10000000) = true ∧
    is_zero_approx (1 / 10000000 : ℚ) = true ∧
    UNIT_EPSILON true = CMP_EPSILON ∧
    UNIT_EPSILON false = 1 / 1000 := by
  refine ⟨?_, ?_, ?_, ?_⟩
  · unfold is_equal_approx CMP_EPSILON
    norm_num [abs_of_nonneg]
  · unfold is_zero_approx CMP_EPSILON
    norm_num [abs_of_nonneg]
  · unfold UNIT_EPSILON CMP_EPSILON
    norm_num
  · unfold UNIT_EPSILON
    norm_num

/-! ### Claims C3 and C4 -/

/-- Claim C3: `cubic_interpolate_in_time` performs no division by zero —
the run with every division checked (`none` on a vanishing denominator)
always succeeds, and returns the very value the unchecked function
computes, on every input including all degenerate time spans. -/
theorem cubic_interpolate_in_time_total
    (p_from p_to p_pre p_post p_weight p_to_t p_pre_t p_post_t : ℚ) :
    cubic_interpolate_in_time_checked p_from p_to p_pre p_post p_weight p_to_t p_pre_t p_post_t =
      some (cubic_interpolate_in_time p_from p_to p_pre p_post p_weight p_to_t p_pre_t p_post_t) := by
  unfold cubic_interpolate_in_time_checked cubic_interpolate_in_time cdiv
  by_cases h1 : p_pre_t = 0 <;> by_cases h2 : p_to_t = 0 <;>
    by_cases h3 : p_post_t - p_to_t = 0 <;> by_cases h4 : p_to_t - p_pre_t = 0 <;>
      by_cases h5 : p_post_t = 0 <;>
        simp [h1, h2, h3, h4, h5, neg_eq_zero]

/-- Claim C4: with no degenerate time span (every blend denominator
nonzero), `cubic_interpolate_in_time` is exactly `p_from` at weight `0`
and exactly `p_to` at weight `1` (`p_to_t` being the span from time `0`
to `p_to`). -/
theorem cubic_interpolate_in_time_endpoints
    (p_from p_to p_pre p_post p_to_t p_pre_t p_post_t : ℚ)
    (h1 : p_pre_t ≠ 0) (h2 : p_to_t ≠ 0) (h3 : p_post_t ≠ 0)
    (h4 : p_post_t - p_to_t ≠ 0) (h5 : p_to_t - p_pre_t ≠ 0) :
    cubic_interpolate_in_time p_from p_to p_pre p_post 0 p_to_t p_pre_t p_post_t = p_from ∧
    cubic_interpolate_in_time p_from p_to p_pre p_post 1 p_to_t p_pre_t p_post_t = p_to := by
  unfold cubic_interpolate_in_time lerp
  simp only [if_neg h1, if_neg h2, if_neg h4, if_neg h5, if_neg h3]
  constructor <;> field_simp

/-- Witness for `cubic_interpolate_in_time_endpoints` at the control
values `(5, 7, 3, 11)` and the time spans `to_t = 1`, `pre_t = -1`,
`post_t = 2`. -/
theorem cubic_interpolate_in_time_endpoints_witness :
    cubic_interpolate_in_time 5 7 3 11 0 1 (-1) 2 = 5 ∧
    cubic_interpolate_in_time 5 7 3 11 1 1 (-1) 2 = 7 :=
  cubic_interpolate_in_time_endpoints 5 7 3 11 1 (-1) 2
    (by norm_num) (by norm_num) (by norm_num) (by norm_num) (by norm_num)

/-! ### Claim C7 -/

theorem neg_lt_tmod {b : ℤ} (a : ℤ) (hb : 0 < b) : -b < Int.tmod a b := by
  rcases le_or_lt 0 a with ha | ha
  · have h := Int.tmod_nonneg b ha
    omega
  · have hneg : Int.tmod a b = -Int.tmod (-a) b := by
      rw [Int.tmod_def, Int.tmod_def, Int.neg_tdiv]
      ring
    have hub : Int.tmod (-a) b < b := Int.tmod_lt_of_pos (-a) hb
    omega

/-- Claim C7: for `max > min`, `wrapi value min max` lies in
`[min, max)` and is congruent to `value` modulo `max - min`; and for a
degenerate range (`max = min`) the guard returns `min`, so the
remainder (whose modulus would be zero) is never taken. -/
theorem wrapi_range_spec :
    (∀ value mn mx : ℤ, mn < mx →
      mn ≤ wrapi value mn mx ∧ wrapi value mn mx < mx ∧
      (mx - mn) ∣ (wrapi value mn mx - value)) ∧
    (∀ value mn : ℤ, wrapi value mn mn = mn) := by
  constructor
  · intro v mn mx h
    have hr0 : mx - mn ≠ 0 := by omega
    have hrpos : 0 < mx - mn := by omega
    have key : wrapi v mn mx =
        mn + Int.tmod (Int.tmod (v - mn) (mx - mn) + (mx - mn)) (mx - mn) := by
      unfold wrapi
      rw [if_neg hr0]
    set r := mx - mn with hrdef
    set a := v - mn with hadef
    set s := Int.tmod a r + r with hsdef
    have hs0 : 0 ≤ s := by
      have := neg_lt_tmod a hrpos
      omega
    have hts : Int.tmod s r = s % r := Int.tmod_eq_emod hs0 (le_of_lt hrpos)
    have hem0 : 0 ≤ s % r := Int.emod_nonneg s hr0
    have hem1 : s % r < r := Int.emod_lt_of_pos s hrpos
    rw [key, hts]
    refine ⟨by omega, by omega, ?_⟩
    obtain ⟨d1, hd1⟩ : ∃ d1, Int.tmod a r = a - r * d1 :=
      ⟨Int.tdiv a r, by linarith [Int.tmod_add_tdiv a r]⟩
    obtain ⟨d2, hd2⟩ : ∃ d2, s % r = s - r * d2 := ⟨s / r, Int.emod_def s r⟩
    refine ⟨1 - d1 - d2, ?_⟩
    rw [hd2, hsdef, hd1, hadef]
    ring
  · intro v mn
    unfold wrapi
    simp

/-- Witness for the first part of `wrapi_range_spec` at
`(value, min, max) = (7, 0, 5)`. -/
theorem wrapi_range_spec_witness :
    (0 : ℤ) ≤ wrapi 7 0 5 ∧ wrapi 7 0 5 < 5 ∧ (5 - 0 : ℤ) ∣ (wrapi 7 0 5 - 7) :=
  wrapi_range_spec.1 7 0 5 (by norm_num)

/-! ### Claim C9 -/

/-- Claim C9 is contradicted by the source of `fast_ftoi`: the function
declares `static int b;` and assigns it on every call, so it writes a
storage location shared across calls rather than a per-call temporary.
In the state-passing model, a call with `a = 1` leaves the static slot
holding `1` whatever it held before — here both `0` and `7` are
overwritten. -/
theorem fast_ftoi_writes_static :
    (fast_ftoi 1 0).2 = 1 ∧ (fast_ftoi 1 7).2 = 1 := by
  have h : round (1 : ℚ) = 1 := round_one
  unfold fast_ftoi
  refine ⟨?_, ?_⟩ <;> simp [h]

/-! ### Claim C1 -/

theorem fmod_double_le_half {u y : ℚ} (hy : 0 < y) (hu : |u| < y) :
    |fmod (2 * u) y - u| ≤ y / 2 := by
  have hy0 : y ≠ 0 := ne_of_gt hy
  rw [abs_lt] at hu
  set q : ℚ := 2 * u / y with hqdef
  have hqy : q * y = 2 * u := by
    rw [hqdef]
    field_simp
  have hq2 : q < 2 := by
    rw [hqdef, div_lt_iff₀ hy]
    linarith
  have hqm2 : -2 < q := by
    rw [hqdef, lt_div_iff₀ hy]
    linarith
  have hfm : fmod (2 * u) y = 2 * u - y * truncQ q := by
    unfold fmod
    rw [← hqdef]
  rw [hfm]
  rcases le_or_lt 0 q with hq | hq
  · have hk : truncQ q = ⌊q⌋ := if_pos hq
    have hk0 : 0 ≤ ⌊q⌋ := Int.floor_nonneg.2 hq
    have hk1 : ⌊q⌋ < 2 := Int.floor_lt.2 (by push_cast; exact hq2)
    have hfl : (⌊q⌋ : ℚ) ≤ q := Int.floor_le q
    have hfu : q < ⌊q⌋ + 1 := Int.lt_floor_add_one q
    rw [hk, abs_le]
    have h01 : ⌊q⌋ = 0 ∨ ⌊q⌋ = 1 := by omega
    rcases h01 with h | h <;> rw [h] at hfl hfu <;> rw [h] <;>
      push_cast at hfl hfu ⊢ <;> constructor <;> nlinarith [hqy]
  · have hk : truncQ q = -⌊-q⌋ := if_neg (not_le.2 hq)
    have hk0 : 0 ≤ ⌊-q⌋ := Int.floor_nonneg.2 (by linarith)
    have hk1 : ⌊-q⌋ < 2 := Int.floor_lt.2 (by push_cast; linarith)
    have hfl : (⌊-q⌋ : ℚ) ≤ -q := Int.floor_le (-q)
    have hfu : -q < ⌊-q⌋ + 1 := Int.lt_floor_add_one (-q)
    rw [hk, abs_le]
    have h01 : ⌊-q⌋ = 0 ∨ ⌊-q⌋ = 1 := by omega
    rcases h01 with h | h <;> rw [h] at hfl hfu <;> rw [h] <;>
      push_cast at hfl hfu ⊢ <;> constructor <;> nlinarith [hqy]

/-- Claim C1: `lerp_angle` interpolates along the shortest signed arc:
for all angles and weights the result is `p_from + d * p_weight` with
`d` congruent to `p_to - p_from` modulo `Math_TAU` and `|d| ≤
Math_TAU / 2`; in particular interpolating halfway from 350 degrees to
10 degrees (in radians) lands on an angle congruent to 0 degrees modulo
a full turn. -/
theorem lerp_angle_shortest_arc :
    (∀ p_from p_to p_weight : ℚ, ∃ d : ℚ,
        lerp_angle p_from p_to p_weight = p_from + d * p_weight ∧
        (∃ k : ℤ, d = (p_to - p_from) - k * Math_TAU) ∧
        |d| ≤ Math_TAU / 2) ∧
    (∃ k : ℤ, lerp_angle (deg_to_rad 350) (deg_to_rad 10) (1 / 2) =
        deg_to_rad 0 + k * Math_TAU) := by
  have htau : (0 : ℚ) < Math_TAU := by
    unfold Math_TAU
    norm_num
  have main : ∀ p_from p_to p_weight : ℚ, ∃ d : ℚ,
      lerp_angle p_from p_to p_weight = p_from + d * p_weight ∧
      (∃ k : ℤ, d = (p_to - p_from) - k * Math_TAU) ∧
      |d| ≤ Math_TAU / 2 := by
    intro f t w
    refine ⟨fmod (2 * fmod (t - f) Math_TAU) Math_TAU - fmod (t - f) Math_TAU,
      rfl, ?_, ?_⟩
    · refine ⟨truncQ ((t - f) / Math_TAU) +
        truncQ (2 * fmod (t - f) Math_TAU / Math_TAU), ?_⟩
      unfold fmod
      push_cast
      ring
    · exact fmod_double_le_half htau (abs_fmod_lt (t - f) htau)
  refine ⟨main, ?_⟩
  obtain ⟨d, heq, ⟨k, hk⟩, hd⟩ := main (deg_to_rad 350) (deg_to_rad 10) (1 / 2)
  have htf : deg_to_rad 10 - deg_to_rad 350 = -(17 / 18) * Math_TAU := by
    unfold deg_to_rad Math_PI Math_TAU
    norm_num
  rw [htf] at hk
  rw [hk] at hd
  obtain ⟨hlow, hhigh⟩ := abs_le.1 hd
  have hkm : k = -1 := by
    have hkhigh : (k : ℚ) < 0 := by nlinarith
    have hklow : (-2 : ℚ) < (k : ℚ) := by nlinarith
    have h1 : (-2 : ℤ) < k := by exact_mod_cast hklow
    have h2 : k < 0 := by exact_mod_cast hkhigh
    omega
  rw [hkm] at hk
  refine ⟨1, ?_⟩
  rw [heq, hk]
  unfold deg_to_rad Math_PI Math_TAU
  push_cast
  ring_nf

end Math

/-! ### Bit-cascade lemmas for claims C5 and C8 -/

theorem spread_step {y f : Nat} {m : Nat}
    (H : ∀ i, f.testBit i = true ↔ ∃ j, i ≤ j ∧ j ≤ i + m ∧ y.testBit j = true) :
    ∀ i, (f ||| f >>> (m + 1)).testBit i = true ↔
      ∃ j, i ≤ j ∧ j ≤ i + (2 * m + 1) ∧ y.testBit j = true := by
  intro i
  rw [Nat.testBit_or, Nat.testBit_shiftRight]
  simp only [Bool.or_eq_true]
  constructor
  · rintro (h | h)
    · obtain ⟨j, h1, h2, h3⟩ := (H i).1 h
      exact ⟨j, h1, by omega, h3⟩
    · obtain ⟨j, h1, h2, h3⟩ := (H (m + 1 + i)).1 h
      exact ⟨j, by omega, by omega, h3⟩
  · rintro ⟨j, h1, h2, h3⟩
    rcases le_or_lt j (i + m) with hj | hj
    · exact Or.inl ((H i).2 ⟨j, h1, hj, h3⟩)
    · exact Or.inr ((H (m + 1 + i)).2 ⟨j, by omega, by omega, h3⟩)

theorem or_shift_cascade_testBit (y i : Nat) :
    (or_shift_cascade y).testBit i = true ↔
      ∃ j, i ≤ j ∧ j ≤ i + 31 ∧ y.testBit j = true := by
  have h0 : ∀ i, y.testBit i = true ↔
      ∃ j, i ≤ j ∧ j ≤ i + 0 ∧ y.testBit j = true := by
    intro i
    constructor
    · intro h
      exact ⟨i, le_refl i, by omega, h⟩
    · rintro ⟨j, h1, h2, h3⟩
      have : j = i := by omega
      rw [← this]
      exact h3
  have h1 := spread_step (m := 0) h0
  have h2 := spread_step (m := 1) h1
  have h3 := spread_step (m := 3) h2
  have h4 := spread_step (m := 7) h3
  have h5 := spread_step (m := 15) h4
  exact h5 i

theorem testBit_true_le_log {y j : Nat} (hy : y ≠ 0) (h : y.testBit j = true) :
    j ≤ Nat.log 2 y :=
  (Nat.pow_le_iff_le_log (by norm_num) hy).1 (Nat.testBit_implies_ge h)

theorem testBit_log_self {y : Nat} (hy : y ≠ 0) : y.testBit (Nat.log 2 y) = true := by
  have h1 : 2 ^ Nat.log 2 y ≤ y := Nat.pow_log_le_self 2 hy
  have h2 : y < 2 ^ (Nat.log 2 y + 1) := Nat.lt_pow_succ_log_self (by norm_num) y
  rw [Nat.testBit_to_div_mod]
  have hdiv : y / 2 ^ Nat.log 2 y = 1 := by
    refine Nat.div_eq_of_lt_le (by omega) ?_
    rw [pow_succ] at h2
    omega
  rw [hdiv]
  rfl

theorem or_shift_cascade_eq {y : Nat} (h1 : y ≠ 0) (h2 : y < 2 ^ 32) :
    or_shift_cascade y = 2 ^ (Nat.log 2 y + 1) - 1 := by
  apply Nat.eq_of_testBit_eq
  intro i
  rw [Nat.testBit_two_pow_sub_one]
  by_cases hi : i < Nat.log 2 y + 1
  · rw [decide_eq_true hi]
    rw [or_shift_cascade_testBit]
    have hL : Nat.log 2 y < 32 := Nat.log_lt_of_lt_pow h1 h2
    exact ⟨Nat.log 2 y, by omega, by omega, testBit_log_self h1⟩
  · rw [decide_eq_false hi]
    rw [← Bool.not_eq_true]
    intro h
    obtain ⟨j, hj1, hj2, hj3⟩ := (or_shift_cascade_testBit y i).1 h
    have := testBit_true_le_log h1 hj3
    omega

theorem next_power_of_2_eq_pow {x : Nat} (h1 : 2 ≤ x) (h2 : x ≤ 2 ^ 31) :
    next_power_of_2 x = 2 ^ (Nat.log 2 (x - 1) + 1) := by
  have p31 : (2 : Nat) ^ 31 = 2147483648 := by norm_num
  have p32 : (2 : Nat) ^ 32 = 4294967296 := by norm_num
  unfold next_power_of_2
  rw [if_neg (by omega)]
  have hx1 : x - 1 ≠ 0 := by omega
  have hx2 : x - 1 < 2 ^ 32 := by omega
  rw [or_shift_cascade_eq hx1 hx2]
  have hL : Nat.log 2 (x - 1) < 31 := Nat.log_lt_of_lt_pow hx1 (by omega)
  have hpow : 2 ^ (Nat.log 2 (x - 1) + 1) ≤ 2 ^ 31 :=
    Nat.pow_le_pow_right (by norm_num) (by omega)
  have hge : 0 < 2 ^ (Nat.log 2 (x - 1) + 1) := Nat.two_pow_pos _
  rw [Nat.sub_add_cancel hge, Nat.mod_eq_of_lt (by omega)]

theorem next_power_of_2_is_next {x : Nat} (hx1 : 1 ≤ x) (hx2 : x ≤ 2 ^ 31) :
    x ≤ next_power_of_2 x ∧ (∃ k, next_power_of_2 x = 2 ^ k) ∧
      ∀ m, x ≤ 2 ^ m → next_power_of_2 x ≤ 2 ^ m := by
  rcases eq_or_lt_of_le hx1 with h1 | h1
  · have hx : x = 1 := h1.symm
    subst hx
    have hone : next_power_of_2 1 = 1 := by decide
    rw [hone]
    exact ⟨le_refl 1, ⟨0, rfl⟩, fun m hm => hm⟩
  · have h2x : 2 ≤ x := h1
    rw [next_power_of_2_eq_pow h2x hx2]
    refine ⟨?_, ⟨_, rfl⟩, ?_⟩
    · have := Nat.lt_pow_succ_log_self (b := 2) (by norm_num) (x - 1)
      omega
    · intro m hm
      have hxm : x - 1 < 2 ^ m := by omega
      have hLm : Nat.log 2 (x - 1) < m := Nat.log_lt_of_lt_pow (by omega) hxm
      exact Nat.pow_le_pow_right (by norm_num) (by omega)

theorem next_power_of_2_overflow {x : Nat} (h1 : 2 ^ 31 < x) (h2 : x < 2 ^ 32) :
    next_power_of_2 x = 0 := by
  have p31 : (2 : Nat) ^ 31 = 2147483648 := by norm_num
  have p32 : (2 : Nat) ^ 32 = 4294967296 := by norm_num
  unfold next_power_of_2
  rw [if_neg (by omega)]
  have hx1 : x - 1 ≠ 0 := by omega
  rw [or_shift_cascade_eq hx1 (by omega)]
  have hL : Nat.log 2 (x - 1) = 31 :=
    Nat.log_eq_of_pow_le_of_lt_pow (by omega) (by omega)
  rw [hL]
  norm_num

theorem previous_power_of_2_eq_pow {x : Nat} (h1 : x ≠ 0) (h2 : x < 2 ^ 32) :
    previous_power_of_2 x = 2 ^ Nat.log 2 x := by
  unfold previous_power_of_2
  rw [or_shift_cascade_eq h1 h2]
  show (2 ^ (Nat.log 2 x + 1) - 1) - (2 ^ (Nat.log 2 x + 1) - 1) >>> 1 = 2 ^ Nat.log 2 x
  rw [Nat.shiftRight_eq_div_pow]
  have hs : 2 ^ (Nat.log 2 x + 1) = 2 * 2 ^ Nat.log 2 x := by
    rw [pow_succ]
    ring
  rw [hs]
  have h1p : (2 : Nat) ^ 1 = 2 := by norm_num
  rw [h1p]
  have hP : 0 < 2 ^ Nat.log 2 x := Nat.two_pow_pos _
  omega

/-! ### Claim C8 -/

/-- Claim C8 is refuted as stated: for `x = 2 ^ 31 + 1` the increment of
`next_power_of_2` wraps to `0` in 32-bit arithmetic, and `0` is not a
power of two greater than or equal to `x`. -/
theorem next_power_of_2_overflow_counterexample :
    next_power_of_2 2147483649 = 0 ∧ next_power_of_2 2147483649 < 2147483649 := by
  decide

/-- Claim C8 (amended): `next_power_of_2 x` is the smallest power of two
greater than or equal to `x` reduced modulo `2 ^ 32`: for `x ≤ 2 ^ 31`
it is exactly that smallest power (with `next_power_of_2 0 = 0` by
convention), while for `2 ^ 31 < x < 2 ^ 32` the increment wraps the
true answer `2 ^ 32` to `0`; in particular `next_power_of_2 5 = 8` and
`next_power_of_2 8 = 8`. -/
theorem next_power_of_2_spec :
    (∀ x : Nat, 1 ≤ x → x ≤ 2 ^ 31 →
      x ≤ next_power_of_2 x ∧ (∃ k, next_power_of_2 x = 2 ^ k) ∧
        ∀ m, x ≤ 2 ^ m → next_power_of_2 x ≤ 2 ^ m) ∧
    (∀ x : Nat, 2 ^ 31 < x → x < 2 ^ 32 → next_power_of_2 x = 0) ∧
    next_power_of_2 0 = 0 ∧ next_power_of_2 5 = 8 ∧ next_power_of_2 8 = 8 :=
  ⟨fun _ h1 h2 => next_power_of_2_is_next h1 h2,
    fun _ h1 h2 => next_power_of_2_overflow h1 h2,
    by decide, by decide, by decide⟩

/-- Witness for the universal part of `next_power_of_2_spec` at `x = 5`. -/
theorem next_power_of_2_spec_witness :
    5 ≤ next_power_of_2 5 ∧ (∃ k, next_power_of_2 5 = 2 ^ k) ∧
      ∀ m, 5 ≤ 2 ^ m → next_power_of_2 5 ≤ 2 ^ m :=
  next_power_of_2_spec.1 5 (by norm_num) (by norm_num)

/-! ### Claim C5 -/

/-- Claim C5 is refuted at the tie `x = 6`: both powers are at distance
`2`, yet `closest_power_of_2 6 = 8`, the higher (next) power, not the
lower `previous_power_of_2 6 = 4` the claim demands. -/
theorem closest_power_of_2_tie_counterexample :
    next_power_of_2 6 - 6 = 6 - previous_power_of_2 6 ∧
    previous_power_of_2 6 = 4 ∧ closest_power_of_2 6 = 8 ∧
    previous_power_of_2 6 < closest_power_of_2 6 := by
  decide

/-- Claim C5 (amended): for `1 ≤ x ≤ 2 ^ 31` (where the next power does
not overflow), `closest_power_of_2 x` is whichever of
`next_power_of_2 x` and `previous_power_of_2 x` has the smaller absolute
distance to `x`, and a tie goes to the higher value `next_power_of_2 x`;
in particular `closest_power_of_2 5 = 4`. -/
theorem closest_power_of_2_nearest :
    (∀ x : Nat, 1 ≤ x → x ≤ 2 ^ 31 →
      closest_power_of_2 x =
        if (x : ℤ) - previous_power_of_2 x < (next_power_of_2 x : ℤ) - x
        then previous_power_of_2 x else next_power_of_2 x) ∧
    closest_power_of_2 5 = 4 := by
  constructor
  · intro x h1 h2
    have p31 : (2 : Nat) ^ 31 = 2147483648 := by norm_num
    have p32 : (2 : Nat) ^ 32 = 4294967296 := by norm_num
    obtain ⟨hnx, _, hmin⟩ := next_power_of_2_is_next h1 h2
    have hnx31 : next_power_of_2 x ≤ 2 ^ 31 := hmin 31 h2
    have hpx : previous_power_of_2 x ≤ x := by
      rw [previous_power_of_2_eq_pow (by omega) (by omega)]
      exact Nat.pow_log_le_self 2 (by omega)
    have husub1 : usub (next_power_of_2 x) x = next_power_of_2 x - x := by
      unfold usub
      rw [p32]
      omega
    have husub2 : usub x (previous_power_of_2 x) = x - previous_power_of_2 x := by
      unfold usub
      rw [p32]
      omega
    unfold closest_power_of_2
    simp only [husub1, husub2]
    by_cases h : x - previous_power_of_2 x < next_power_of_2 x - x
    · rw [if_pos h, if_pos (by omega)]
    · rw [if_neg h, if_neg (by omega)]
  · decide

/-- Witness for the universal part of `closest_power_of_2_nearest` at
`x = 5`. -/
theorem closest_power_of_2_nearest_witness :
    closest_power_of_2 5 =
      if (5 : ℤ) - previous_power_of_2 5 < (next_power_of_2 5 : ℤ) - 5
      then previous_power_of_2 5 else next_power_of_2 5 :=
  closest_power_of_2_nearest.1 5 (by norm_num) (by norm_num)

end Godot
